import Mathlib

/-!
Verification of the token chunking/packing routine of the notebook
src/sagemaker/24_train_bloom_peft_lora/sagemaker-notebook.ipynb.

The notebook's only original logic is the function chunk, which concatenates
the tokenized samples of a batch (keys input_ids and attention_mask), prepends
the remainder carried over from the previous batch in a global variable,
slices the concatenation into blocks of chunk_length tokens, stores the tokens
past the last full block back into the global remainder, and copies the
input_ids blocks into a labels key.

The Python code assigns the local variable batch_chunk_length only under the
condition batch_total_length >= chunk_length but reads it unconditionally, so
a call in which remainder plus batch holds fewer than chunk_length tokens
raises an UnboundLocalError (a NameError).  The embedding models this fallible
behaviour with Option: none is the error path.
-/

set_option autoImplicit false

namespace BloomChunk

/-- A batch of tokenized samples: per-sample lists under the two tokenizer
keys, mirroring the dict of lists the dataset map passes to chunk.  Tokens are
modelled as naturals. -/
structure SampleBatch where
  input_ids : List (List Nat)
  attention_mask : List (List Nat)
  deriving Repr, DecidableEq

/-- The global variable remainder of the notebook, initialised with an empty
list under each key: the tokens carried between batches. -/
structure Remainder where
  input_ids : List Nat
  attention_mask : List Nat
  deriving Repr, DecidableEq

/-- The dict returned by chunk: blocks for both tokenizer keys plus the labels
key added by result["labels"] = result["input_ids"].copy(). -/
structure ChunkResult where
  input_ids : List (List Nat)
  attention_mask : List (List Nat)
  labels : List (List Nat)
  deriving Repr, DecidableEq

/-- The slicing comprehension of the source,
[t[i : i + chunk_length] for i in range(0, batch_chunk_length, chunk_length)]:
batch_chunk_length is always a multiple of chunk_length, so the range has
batch_chunk_length / chunk_length elements i * chunk_length. -/
def sliceBlocks (chunk_length batch_chunk_length : Nat) (t : List Nat) :
    List (List Nat) :=
  (List.range (batch_chunk_length / chunk_length)).map
    (fun i => (t.drop (i * chunk_length)).take chunk_length)

/-- The function chunk of the notebook, with the global remainder made an
explicit argument and result.  Following the source: concatenate each key over
the samples, prepend the remainder of the previous batch, take the total
length from the first key (input_ids), and if that total reaches chunk_length
set batch_chunk_length to the largest multiple of chunk_length below it.
Otherwise batch_chunk_length is never assigned and the slicing comprehension
raises an UnboundLocalError, modelled as none.  On success the result holds
the sliced blocks for every key, labels is a copy of the input_ids blocks, and
the new remainder holds each key's tokens past batch_chunk_length. -/
def chunk (rem : Remainder) (sample : SampleBatch) (chunk_length : Nat := 2048) :
    Option (ChunkResult × Remainder) :=
  let concatenated_ids := rem.input_ids ++ sample.input_ids.flatten
  let concatenated_am := rem.attention_mask ++ sample.attention_mask.flatten
  let batch_total_length := concatenated_ids.length
  if chunk_length ≤ batch_total_length then
    let batch_chunk_length := (batch_total_length / chunk_length) * chunk_length
    let ids_blocks := sliceBlocks chunk_length batch_chunk_length concatenated_ids
    let am_blocks := sliceBlocks chunk_length batch_chunk_length concatenated_am
    some (⟨ids_blocks, am_blocks, ids_blocks⟩,
      ⟨concatenated_ids.drop batch_chunk_length,
        concatenated_am.drop batch_chunk_length⟩)
  else
    none

/-- Iterating chunk over a sequence of batches, threading the global remainder
exactly as the dataset map does, starting from a given remainder.  A failing
call aborts the run. -/
def processBatches (chunk_length : Nat) (rem : Remainder) :
    List SampleBatch → Option (List ChunkResult × Remainder)
  | [] => some ([], rem)
  | b :: bs =>
    match chunk rem b chunk_length with
    | none => none
    | some (res, rem') =>
      match processBatches chunk_length rem' bs with
      | none => none
      | some (ress, remF) => some (res :: ress, remF)

/-- The chunking map of the pipeline: dataset.map(partial(chunk,
chunk_length=1536), batched=True) fixes the block length to 1536. -/
def lmChunk (rem : Remainder) (sample : SampleBatch) :
    Option (ChunkResult × Remainder) :=
  chunk rem sample 1536

/-- chunk called without an explicit chunk_length, as def chunk(sample,
chunk_length=2048) defaults it. -/
def chunkDefault (rem : Remainder) (sample : SampleBatch) :
    Option (ChunkResult × Remainder) :=
  chunk rem sample

/-- Modelled from the spec: split a token sequence into consecutive full
blocks of length L, keeping the final partial block as the remainder.  This is
the spec's description of the splitting step, written independently of the
source's slicing comprehension; it is total. -/
def chunksExact (L : Nat) (t : List Nat) : List (List Nat) × List Nat :=
  if _h : 0 < L ∧ L ≤ t.length then
    let rest := chunksExact L (t.drop L)
    (t.take L :: rest.1, rest.2)
  else
    ([], t)
termination_by t.length
decreasing_by
  simp only [List.length_drop]
  omega

/-- Modelled from the spec: one step of the reference pure fold, per key:
prepend the remainder, split into full blocks of length L, keep the partial
block as the new remainder; labels copies the input_ids blocks. -/
def specStep (L : Nat) (rem : Remainder) (b : SampleBatch) :
    ChunkResult × Remainder :=
  let ci := chunksExact L (rem.input_ids ++ b.input_ids.flatten)
  let ca := chunksExact L (rem.attention_mask ++ b.attention_mask.flatten)
  (⟨ci.1, ca.1, ci.1⟩, ⟨ci.2, ca.2⟩)

/-- Modelled from the spec: the reference pure left fold over the sequence of
batches whose accumulator is the remainder, starting from the empty
remainder and collecting the emitted blocks in order. -/
def specFold (L : Nat) (rem : Remainder) : List SampleBatch →
    List ChunkResult × Remainder
  | [] => ([], rem)
  | b :: bs =>
    let sr := specStep L rem b
    let rest := specFold L sr.2 bs
    (sr.1 :: rest.1, rest.2)

/-- Well-formedness of the data the tokenizer produces: the remainder's two
keys hold equally many tokens, and in the batch the samples' input_ids and
attention_mask have pairwise equal lengths. -/
def WellFormed (rem : Remainder) (b : SampleBatch) : Prop :=
  rem.input_ids.length = rem.attention_mask.length ∧
    b.input_ids.map List.length = b.attention_mask.map List.length

/-! ### Helper lemmas about the slicing comprehension -/

/-- Concatenating the first n slices of width L recovers the first n * L
tokens. -/
theorem flatten_slices (L : Nat) :
    ∀ (n : Nat) (t : List Nat),
      ((List.range n).map (fun i => (t.drop (i * L)).take L)).flatten
        = t.take (n * L) := by
  intro n
  induction n with
  | zero => intro t; simp
  | succ n ih =>
    intro t
    rw [List.range_succ, List.map_append, List.flatten_append, ih t]
    simp only [List.map_cons, List.map_nil, List.flatten_cons, List.flatten_nil,
      List.append_nil]
    rw [Nat.succ_mul, List.take_add]

/-- When B is a multiple of L, the sliced blocks concatenate back to the
first B tokens of the sequence. -/
theorem sliceBlocks_flatten (L B : Nat) (t : List Nat) (hB : B / L * L = B) :
    (sliceBlocks L B t).flatten = t.take B := by
  unfold sliceBlocks
  rw [flatten_slices, hB]

/-- The number of sliced blocks is B / L, whatever the sequence holds. -/
theorem sliceBlocks_count (L B : Nat) (t : List Nat) :
    (sliceBlocks L B t).length = B / L := by
  simp [sliceBlocks]

/-- When B is a multiple of L not exceeding the sequence length, every sliced
block has length exactly L. -/
theorem sliceBlocks_block_length (L B : Nat) (t : List Nat)
    (hB : B / L * L = B) (hle : B ≤ t.length) :
    ∀ blk ∈ sliceBlocks L B t, blk.length = L := by
  intro blk hblk
  unfold sliceBlocks at hblk
  rw [List.mem_map] at hblk
  obtain ⟨i, hi, rfl⟩ := hblk
  rw [List.mem_range] at hi
  have h1 : i * L + L ≤ B := by
    have h2 : (i + 1) * L ≤ B / L * L :=
      Nat.mul_le_mul_right L hi
    rw [hB, Nat.succ_mul] at h2
    exact h2
  simp only [List.length_take, List.length_drop]
  omega

/-- Sequences of equal length are sliced into blocks of pointwise equal
lengths. -/
theorem sliceBlocks_map_length (L B : Nat) (s t : List Nat)
    (h : s.length = t.length) :
    (sliceBlocks L B s).map List.length = (sliceBlocks L B t).map List.length := by
  unfold sliceBlocks
  rw [List.map_map, List.map_map]
  apply List.map_congr_left
  intro i _
  simp [List.length_take, List.length_drop, h]

/-- Peeling the first slice off n + 1 slices. -/
theorem slices_succ (L n : Nat) (t : List Nat) :
    (List.range (n + 1)).map (fun i => (t.drop (i * L)).take L)
      = t.take L :: (List.range n).map (fun i => ((t.drop L).drop (i * L)).take L) := by
  rw [List.range_succ_eq_map n, List.map_cons, List.map_map]
  simp only [Nat.zero_mul, List.drop_zero]
  congr 1
  apply List.map_congr_left
  intro i _
  simp only [Function.comp_apply, List.drop_drop]
  congr 2
  rw [Nat.succ_mul]
  omega

/-- The spec-side splitter agrees with the source's slicing: it produces the
slices at the multiples of L below length / L * L, and keeps the rest. -/
theorem chunksExact_eq (L : Nat) (hL : 0 < L) :
    ∀ (n : Nat) (t : List Nat), t.length / L = n →
      chunksExact L t = (sliceBlocks L (n * L) t, t.drop (n * L)) := by
  intro n
  induction n with
  | zero =>
    intro t ht
    have hlt : t.length < L := by
      rcases Nat.lt_or_ge t.length L with h | h
      · exact h
      · exact absurd ht (by have := (Nat.one_le_div_iff hL).mpr h; omega)
    rw [chunksExact, dif_neg (by omega)]
    simp [sliceBlocks]
  | succ n ih =>
    intro t ht
    have hle : L ≤ t.length := by
      rcases Nat.lt_or_ge t.length L with h | h
      · exact absurd ht (by rw [Nat.div_eq_of_lt h]; omega)
      · exact h
    rw [chunksExact, dif_pos ⟨hL, hle⟩]
    have hdrop : (t.drop L).length / L = n := by
      rw [List.length_drop]
      have hd := Nat.div_add_mod t.length L
      have hm : t.length % L < L := Nat.mod_lt _ hL
      have hlen : t.length = L * n + L + t.length % L := by
        conv_lhs => rw [← hd]
        rw [ht, Nat.mul_succ]
      rw [hlen]
      have e : L * n + L + t.length % L - L = L * n + t.length % L := by omega
      rw [e, Nat.mul_add_div hL, Nat.div_eq_of_lt hm]
      omega
    rw [ih (t.drop L) hdrop]
    simp only [Prod.mk.injEq]
    constructor
    · unfold sliceBlocks
      rw [Nat.mul_div_cancel (n + 1) hL, Nat.mul_div_cancel n hL, slices_succ]
    · rw [List.drop_drop]
      congr 1
      ring

/-! ### Unfolding chunk -/

/-- On a batch whose total (with the carried remainder) reaches chunk_length,
chunk returns the sliced blocks and the leftover suffix of each key. -/
theorem chunk_eq_some (rem : Remainder) (b : SampleBatch) (L : Nat)
    (h : L ≤ (rem.input_ids ++ b.input_ids.flatten).length) :
    chunk rem b L = some
      (⟨sliceBlocks L ((rem.input_ids ++ b.input_ids.flatten).length / L * L)
          (rem.input_ids ++ b.input_ids.flatten),
        sliceBlocks L ((rem.input_ids ++ b.input_ids.flatten).length / L * L)
          (rem.attention_mask ++ b.attention_mask.flatten),
        sliceBlocks L ((rem.input_ids ++ b.input_ids.flatten).length / L * L)
          (rem.input_ids ++ b.input_ids.flatten)⟩,
        ⟨(rem.input_ids ++ b.input_ids.flatten).drop
            ((rem.input_ids ++ b.input_ids.flatten).length / L * L),
          (rem.attention_mask ++ b.attention_mask.flatten).drop
            ((rem.input_ids ++ b.input_ids.flatten).length / L * L)⟩) := by
  simp only [chunk]
  rw [if_pos h]

/-- On a batch whose total (with the carried remainder) stays below
chunk_length, the source reads the never-assigned local batch_chunk_length and
raises an UnboundLocalError: the embedding returns none. -/
theorem chunk_eq_none (rem : Remainder) (b : SampleBatch) (L : Nat)
    (h : (rem.input_ids ++ b.input_ids.flatten).length < L) :
    chunk rem b L = none := by
  simp only [chunk, if_neg (by omega : ¬L ≤ (rem.input_ids ++ b.input_ids.flatten).length)]

/-- Inversion of a successful chunk call: the total reached chunk_length and
result and new remainder are the slices and the leftover suffixes. -/
theorem chunk_some_inv (rem : Remainder) (b : SampleBatch) (L : Nat)
    (res : ChunkResult) (rem' : Remainder)
    (h : chunk rem b L = some (res, rem')) :
    L ≤ (rem.input_ids ++ b.input_ids.flatten).length ∧
      res = ⟨sliceBlocks L ((rem.input_ids ++ b.input_ids.flatten).length / L * L)
          (rem.input_ids ++ b.input_ids.flatten),
        sliceBlocks L ((rem.input_ids ++ b.input_ids.flatten).length / L * L)
          (rem.attention_mask ++ b.attention_mask.flatten),
        sliceBlocks L ((rem.input_ids ++ b.input_ids.flatten).length / L * L)
          (rem.input_ids ++ b.input_ids.flatten)⟩ ∧
      rem' = ⟨(rem.input_ids ++ b.input_ids.flatten).drop
          ((rem.input_ids ++ b.input_ids.flatten).length / L * L),
        (rem.attention_mask ++ b.attention_mask.flatten).drop
          ((rem.input_ids ++ b.input_ids.flatten).length / L * L)⟩ := by
  by_cases hc : L ≤ (rem.input_ids ++ b.input_ids.flatten).length
  · rw [chunk_eq_some rem b L hc] at h
    injection h with h
    injection h with h1 h2
    exact ⟨hc, h1.symm, h2.symm⟩
  · rw [chunk_eq_none rem b L (by omega)] at h
    cases h

/-- The index of the last full block is a multiple of L. -/
theorem chunkBound_mul (len L : Nat) : len / L * L / L * L = len / L * L := by
  rcases Nat.eq_zero_or_pos L with h | h
  · subst h; simp
  · rw [Nat.mul_div_cancel _ h]

/-- The sequences the two keys feed into the slicing have equal length for
well-formed input. -/
theorem wellFormed_length_eq (rem : Remainder) (b : SampleBatch)
    (h : WellFormed rem b) :
    (rem.input_ids ++ b.input_ids.flatten).length
      = (rem.attention_mask ++ b.attention_mask.flatten).length := by
  obtain ⟨h1, h2⟩ := h
  simp only [List.length_append, List.length_flatten, h1, h2]

/-! ### Conservation and lockstep lemmas -/

/-- One successful chunk call conserves the tokens of each key: the emitted
blocks followed by the new remainder are the carried remainder followed by the
batch. -/
theorem chunk_step_conserve (rem : Remainder) (b : SampleBatch) (L : Nat)
    (res : ChunkResult) (rem' : Remainder)
    (h : chunk rem b L = some (res, rem')) :
    res.input_ids.flatten ++ rem'.input_ids
        = rem.input_ids ++ b.input_ids.flatten ∧
      res.attention_mask.flatten ++ rem'.attention_mask
        = rem.attention_mask ++ b.attention_mask.flatten := by
  obtain ⟨-, hres, hrem⟩ := chunk_some_inv rem b L res rem' h
  subst hres
  subst hrem
  constructor
  · rw [sliceBlocks_flatten _ _ _ (chunkBound_mul _ _), List.take_append_drop]
  · rw [sliceBlocks_flatten _ _ _ (chunkBound_mul _ _), List.take_append_drop]

/-- A successful chunk call keeps the two keys of the remainder at equal
length when the input was well-formed. -/
theorem chunk_preserves_lockstep (rem : Remainder) (b : SampleBatch) (L : Nat)
    (res : ChunkResult) (rem' : Remainder) (hwf : WellFormed rem b)
    (h : chunk rem b L = some (res, rem')) :
    rem'.input_ids.length = rem'.attention_mask.length := by
  obtain ⟨-, -, hrem⟩ := chunk_some_inv rem b L res rem' h
  subst hrem
  simp only [List.length_drop, wellFormed_length_eq rem b hwf]

/-- Iterated chunking conserves the tokens of each key, from any starting
remainder. -/
theorem processBatches_conserve (L : Nat) :
    ∀ (bs : List SampleBatch) (rem : Remainder) (ress : List ChunkResult)
      (remF : Remainder), processBatches L rem bs = some (ress, remF) →
      (ress.map ChunkResult.input_ids).flatten.flatten ++ remF.input_ids
          = rem.input_ids ++ (bs.map (fun b => b.input_ids.flatten)).flatten ∧
        (ress.map ChunkResult.attention_mask).flatten.flatten
            ++ remF.attention_mask
          = rem.attention_mask
              ++ (bs.map (fun b => b.attention_mask.flatten)).flatten := by
  intro bs
  induction bs with
  | nil =>
    intro rem ress remF h
    simp only [processBatches, Option.some.injEq] at h
    injection h with h1 h2
    subst h1
    subst h2
    simp
  | cons b bs ih =>
    intro rem ress remF h
    simp only [processBatches] at h
    cases hc : chunk rem b L with
    | none => rw [hc] at h; cases h
    | some pr =>
      obtain ⟨res, rem'⟩ := pr
      rw [hc] at h
      dsimp only at h
      cases hp : processBatches L rem' bs with
      | none => rw [hp] at h; cases h
      | some q =>
        obtain ⟨ress', remF'⟩ := q
        rw [hp] at h
        dsimp only at h
        injection h with h
        injection h with h1 h2
        subst h1
        subst h2
        have hstep := chunk_step_conserve rem b L res rem' hc
        have hrest := ih rem' ress' remF' hp
        constructor
        · simp only [List.map_cons, List.flatten_cons, List.flatten_append,
            List.append_assoc]
          rw [hrest.1, ← List.append_assoc, hstep.1, List.append_assoc]
        · simp only [List.map_cons, List.flatten_cons, List.flatten_append,
            List.append_assoc]
          rw [hrest.2, ← List.append_assoc, hstep.2, List.append_assoc]

/-! ### Relating the source's chunk to the spec's pure fold -/

/-- On well-formed input, a successful chunk call computes exactly the
spec-side step. -/
theorem specStep_eq_chunk (rem : Remainder) (b : SampleBatch) (L : Nat)
    (res : ChunkResult) (rem' : Remainder) (hL : 0 < L)
    (hwf : WellFormed rem b) (h : chunk rem b L = some (res, rem')) :
    specStep L rem b = (res, rem') := by
  obtain ⟨-, hres, hrem⟩ := chunk_some_inv rem b L res rem' h
  subst hres
  subst hrem
  have hlen := wellFormed_length_eq rem b hwf
  unfold specStep
  rw [chunksExact_eq L hL ((rem.input_ids ++ b.input_ids.flatten).length / L)
      (rem.input_ids ++ b.input_ids.flatten) rfl,
    chunksExact_eq L hL ((rem.input_ids ++ b.input_ids.flatten).length / L)
      (rem.attention_mask ++ b.attention_mask.flatten) (by rw [← hlen])]

/-- Iterating chunk agrees with the spec-side pure fold whenever it runs to
completion on well-formed input, from any lockstep starting remainder. -/
theorem processBatches_eq_specFold (L : Nat) (hL : 0 < L) :
    ∀ (bs : List SampleBatch) (rem : Remainder)
      (hrem : rem.input_ids.length = rem.attention_mask.length)
      (hbs : ∀ b ∈ bs,
        b.input_ids.map List.length = b.attention_mask.map List.length)
      (ress : List ChunkResult) (remF : Remainder),
      processBatches L rem bs = some (ress, remF) →
      specFold L rem bs = (ress, remF) := by
  intro bs
  induction bs with
  | nil =>
    intro rem _hrem _hbs ress remF h
    simp only [processBatches, Option.some.injEq] at h
    injection h with h1 h2
    subst h1
    subst h2
    rfl
  | cons b bs ih =>
    intro rem hrem hbs ress remF h
    simp only [processBatches] at h
    cases hc : chunk rem b L with
    | none => rw [hc] at h; cases h
    | some pr =>
      obtain ⟨res, rem'⟩ := pr
      rw [hc] at h
      dsimp only at h
      cases hp : processBatches L rem' bs with
      | none => rw [hp] at h; cases h
      | some q =>
        obtain ⟨ress', remF'⟩ := q
        rw [hp] at h
        dsimp only at h
        injection h with h
        injection h with h1 h2
        subst h1
        subst h2
        have hwf : WellFormed rem b := ⟨hrem, hbs b (List.mem_cons_self b bs)⟩
        have hstep := specStep_eq_chunk rem b L res rem' hL hwf hc
        have hrem' := chunk_preserves_lockstep rem b L res rem' hwf hc
        have hrest := ih rem' hrem'
          (fun x hx => hbs x (List.mem_cons_of_mem b hx)) ress' remF' hp
        simp only [specFold, hstep, hrest]

/-- On well-formed input, every block a successful chunk call emits under any
key has length exactly chunk_length and both keys of the new remainder stay
below chunk_length. -/
theorem blocks_length_aux (rem : Remainder) (b : SampleBatch) (L : Nat)
    (hL : 0 < L) (hwf : WellFormed rem b) (res : ChunkResult) (rem' : Remainder)
    (h : chunk rem b L = some (res, rem')) :
    (∀ blk ∈ res.input_ids, blk.length = L) ∧
      (∀ blk ∈ res.attention_mask, blk.length = L) ∧
      (∀ blk ∈ res.labels, blk.length = L) ∧
      rem'.input_ids.length < L ∧ rem'.attention_mask.length < L := by
  obtain ⟨-, hres, hrem⟩ := chunk_some_inv rem b L res rem' h
  subst hres
  subst hrem
  have hlen := wellFormed_length_eq rem b hwf
  have hBle : (rem.input_ids ++ b.input_ids.flatten).length / L * L
      ≤ (rem.input_ids ++ b.input_ids.flatten).length :=
    Nat.div_mul_le_self _ L
  have hmod : (rem.input_ids ++ b.input_ids.flatten).length / L * L
        + (rem.input_ids ++ b.input_ids.flatten).length % L
      = (rem.input_ids ++ b.input_ids.flatten).length := by
    rw [Nat.mul_comm]
    exact Nat.div_add_mod _ L
  have hmlt : (rem.input_ids ++ b.input_ids.flatten).length % L < L :=
    Nat.mod_lt _ hL
  refine ⟨?_, ?_, ?_, ?_, ?_⟩
  · exact sliceBlocks_block_length L _ _ (chunkBound_mul _ L) hBle
  · exact sliceBlocks_block_length L _ _ (chunkBound_mul _ L)
      (by rw [← hlen]; exact hBle)
  · exact sliceBlocks_block_length L _ _ (chunkBound_mul _ L) hBle
  · simp only [List.length_drop]
    omega
  · simp only [List.length_drop, ← hlen]
    omega

/-! ### The claims -/

/-- C1 (counterexample to the claim as stated): with chunk_length 3, the
remainder holding one token and the batch one single-token sample, the claim
predicts zero full blocks and the whole two-token sequence retained as the new
remainder; the code instead reads the unassigned batch_chunk_length and
errors, returning nothing at all. -/
theorem chunk_full_blocks_counterexample :
    chunk ⟨[9], [9]⟩ ⟨[[8]], [[8]]⟩ 3 = none ∧
      chunk ⟨[9], [9]⟩ ⟨[[8]], [[8]]⟩ 3 ≠
        some (⟨[], [], []⟩, ⟨[9, 8], [9, 8]⟩) := by
  decide

/-- C1 (amended): whenever the carried remainder plus the batch hold at least
chunk_length tokens (and the tokenizer keys are in lockstep), chunk
concatenates the per-sample sequences of each key in order behind the
leftover tokens, splits each concatenation into consecutive full blocks of
length chunk_length, returns exactly those blocks, and retains the final
partial block of each key as the new remainder. -/
theorem chunk_splits_into_full_blocks (rem : Remainder) (b : SampleBatch)
    (L : Nat) (hL : 0 < L) (hwf : WellFormed rem b)
    (h : L ≤ (rem.input_ids ++ b.input_ids.flatten).length) :
    chunk rem b L = some
      (⟨(chunksExact L (rem.input_ids ++ b.input_ids.flatten)).1,
        (chunksExact L (rem.attention_mask ++ b.attention_mask.flatten)).1,
        (chunksExact L (rem.input_ids ++ b.input_ids.flatten)).1⟩,
        ⟨(chunksExact L (rem.input_ids ++ b.input_ids.flatten)).2,
          (chunksExact L (rem.attention_mask ++ b.attention_mask.flatten)).2⟩) := by
  have hlen := wellFormed_length_eq rem b hwf
  rw [chunk_eq_some rem b L h,
    chunksExact_eq L hL ((rem.input_ids ++ b.input_ids.flatten).length / L)
      (rem.input_ids ++ b.input_ids.flatten) rfl,
    chunksExact_eq L hL ((rem.input_ids ++ b.input_ids.flatten).length / L)
      (rem.attention_mask ++ b.attention_mask.flatten) (by rw [← hlen])]

/-- C1 witness: a concrete instance of the amended claim. -/
theorem chunk_splits_into_full_blocks_witness :
    chunk ⟨[], []⟩ ⟨[[1, 2, 3]], [[4, 5, 6]]⟩ 2 =
      some (⟨[[1, 2]], [[4, 5]], [[1, 2]]⟩, ⟨[3], [6]⟩) := by
  have h := chunk_splits_into_full_blocks ⟨[], []⟩ ⟨[[1, 2, 3]], [[4, 5, 6]]⟩ 2
    (by decide) ⟨rfl, rfl⟩ (by decide)
  simpa [chunksExact] using h

/-- C2: no tokens are dropped: over any run of batches from the empty
remainder that chunk processes to completion, the emitted blocks in order
followed by the final remainder equal the concatenation of the inputs, for
input_ids and attention_mask alike. -/
theorem chunk_no_tokens_dropped (L : Nat) (bs : List SampleBatch)
    (ress : List ChunkResult) (remF : Remainder)
    (h : processBatches L ⟨[], []⟩ bs = some (ress, remF)) :
    (ress.map ChunkResult.input_ids).flatten.flatten ++ remF.input_ids
        = (bs.map (fun b => b.input_ids.flatten)).flatten ∧
      (ress.map ChunkResult.attention_mask).flatten.flatten
          ++ remF.attention_mask
        = (bs.map (fun b => b.attention_mask.flatten)).flatten := by
  have hc := processBatches_conserve L bs ⟨[], []⟩ ress remF h
  simpa using hc

/-- C2 witness: a concrete two-batch run. -/
theorem chunk_no_tokens_dropped_witness :
    (([⟨[[1, 2]], [[7, 8]], [[1, 2]]⟩, ⟨[[3, 4]], [[9, 6]], [[3, 4]]⟩] :
          List ChunkResult).map ChunkResult.input_ids).flatten.flatten
          ++ [5]
        = (([⟨[[1, 2, 3]], [[7, 8, 9]]⟩, ⟨[[4, 5]], [[6, 5]]⟩] :
            List SampleBatch).map (fun b => b.input_ids.flatten)).flatten ∧
      (([⟨[[1, 2]], [[7, 8]], [[1, 2]]⟩, ⟨[[3, 4]], [[9, 6]], [[3, 4]]⟩] :
          List ChunkResult).map ChunkResult.attention_mask).flatten.flatten
          ++ [5]
        = (([⟨[[1, 2, 3]], [[7, 8, 9]]⟩, ⟨[[4, 5]], [[6, 5]]⟩] :
            List SampleBatch).map (fun b => b.attention_mask.flatten)).flatten :=
  chunk_no_tokens_dropped 2 [⟨[[1, 2, 3]], [[7, 8, 9]]⟩, ⟨[[4, 5]], [[6, 5]]⟩]
    [⟨[[1, 2]], [[7, 8]], [[1, 2]]⟩, ⟨[[3, 4]], [[9, 6]], [[3, 4]]⟩]
    ⟨[5], [5]⟩ (by decide)

/-- C3: every block a successful chunk call emits — under input_ids,
attention_mask and labels alike — has length exactly chunk_length, and both
keys of the retained remainder are strictly shorter than chunk_length
(for well-formed tokenizer output and positive chunk_length). -/
theorem chunk_block_lengths (rem : Remainder) (b : SampleBatch) (L : Nat)
    (hL : 0 < L) (hwf : WellFormed rem b) (res : ChunkResult)
    (rem' : Remainder) (h : chunk rem b L = some (res, rem')) :
    (∀ blk ∈ res.input_ids, blk.length = L) ∧
      (∀ blk ∈ res.attention_mask, blk.length = L) ∧
      (∀ blk ∈ res.labels, blk.length = L) ∧
      rem'.input_ids.length < L ∧ rem'.attention_mask.length < L :=
  blocks_length_aux rem b L hL hwf res rem' h

/-- C3 witness: a concrete successful call. -/
theorem chunk_block_lengths_witness :
    (∀ blk ∈ [[1, 2], [3, 4]], List.length blk = 2) ∧
      (∀ blk ∈ [[5, 6], [7, 8]], List.length blk = 2) ∧
      (∀ blk ∈ [[1, 2], [3, 4]], List.length blk = 2) ∧
      List.length [9] < 2 ∧ List.length [0] < 2 :=
  chunk_block_lengths ⟨[1], [5]⟩ ⟨[[2, 3, 4, 9]], [[6, 7, 8, 0]]⟩ 2
    (by decide) ⟨rfl, rfl⟩
    ⟨[[1, 2], [3, 4]], [[5, 6], [7, 8]], [[1, 2], [3, 4]]⟩ ⟨[9], [0]⟩
    (by decide)

/-- C4: the remainder carry is FIFO and append-only: the emitted blocks of
each key concatenate to the prefix of (previous remainder ++ batch) up to the
last full-block boundary — so the carried tokens are emitted first, none is
reordered or lost — and the new remainder is exactly the contiguous suffix
from that boundary on. -/
theorem chunk_remainder_fifo (rem : Remainder) (b : SampleBatch) (L : Nat)
    (res : ChunkResult) (rem' : Remainder)
    (h : chunk rem b L = some (res, rem')) :
    res.input_ids.flatten
        = (rem.input_ids ++ b.input_ids.flatten).take
            ((rem.input_ids ++ b.input_ids.flatten).length / L * L) ∧
      rem'.input_ids
        = (rem.input_ids ++ b.input_ids.flatten).drop
            ((rem.input_ids ++ b.input_ids.flatten).length / L * L) ∧
      res.attention_mask.flatten
        = (rem.attention_mask ++ b.attention_mask.flatten).take
            ((rem.input_ids ++ b.input_ids.flatten).length / L * L) ∧
      rem'.attention_mask
        = (rem.attention_mask ++ b.attention_mask.flatten).drop
            ((rem.input_ids ++ b.input_ids.flatten).length / L * L) := by
  obtain ⟨-, hres, hrem⟩ := chunk_some_inv rem b L res rem' h
  subst hres
  subst hrem
  exact ⟨sliceBlocks_flatten _ _ _ (chunkBound_mul _ _), rfl,
    sliceBlocks_flatten _ _ _ (chunkBound_mul _ _), rfl⟩

/-- C4 witness: a concrete successful call, remainder tokens emitted first. -/
theorem chunk_remainder_fifo_witness :
    List.flatten [[1, 2], [3, 4]] = List.take (5 / 2 * 2) [1, 2, 3, 4, 9] ∧
      [9] = List.drop (5 / 2 * 2) [1, 2, 3, 4, 9] ∧
      List.flatten [[5, 6], [7, 8]] = List.take (5 / 2 * 2) [5, 6, 7, 8, 0] ∧
      [0] = List.drop (5 / 2 * 2) [5, 6, 7, 8, 0] := by
  have h := chunk_remainder_fifo ⟨[1, 2], [5, 6]⟩ ⟨[[3, 4, 9]], [[7, 8, 0]]⟩ 2
    ⟨[[1, 2], [3, 4]], [[5, 6], [7, 8]], [[1, 2], [3, 4]]⟩ ⟨[9], [0]⟩
    (by decide)
  exact h

/-- C5: the labels field of a chunk result is exactly its input_ids field:
equally many blocks and the same token at every position; the transform does
no shifting. -/
theorem chunk_labels_copy (rem : Remainder) (b : SampleBatch) (L : Nat)
    (res : ChunkResult) (rem' : Remainder)
    (h : chunk rem b L = some (res, rem')) :
    res.labels = res.input_ids := by
  obtain ⟨-, hres, -⟩ := chunk_some_inv rem b L res rem' h
  subst hres
  rfl

/-- C5 witness: a concrete successful call. -/
theorem chunk_labels_copy_witness :
    (ChunkResult.mk [[1, 2]] [[5, 6]] [[1, 2]]).labels
      = (ChunkResult.mk [[1, 2]] [[5, 6]] [[1, 2]]).input_ids :=
  chunk_labels_copy ⟨[], []⟩ ⟨[[1, 2, 3]], [[5, 6, 7]]⟩ 2
    ⟨[[1, 2]], [[5, 6]], [[1, 2]]⟩ ⟨[3], [7]⟩ (by decide)

/-- C6 (counterexample to the claim as stated): on a single batch of one
token with chunk_length 3, the reference pure fold emits one (empty-blocked)
result and carries the token in its accumulator, while iterating the code's
chunk produces nothing: it aborts on the unassigned batch_chunk_length. -/
theorem chunk_fold_counterexample :
    processBatches 3 ⟨[], []⟩ [⟨[[1]], [[1]]⟩] = none ∧
      specFold 3 ⟨[], []⟩ [⟨[[1]], [[1]]⟩] = ([⟨[], [], []⟩], ⟨[1], [1]⟩) := by
  constructor
  · decide
  · simp [specFold, specStep, chunksExact]

/-- C6 (amended): on every sequence of well-formed batches on which the
stateful iteration of chunk runs to completion from the empty remainder, it
produces exactly the blocks and final remainder of the reference pure fold
whose accumulator is the remainder. -/
theorem chunk_stateful_eq_pure_fold (L : Nat) (hL : 0 < L)
    (bs : List SampleBatch)
    (hbs : ∀ b ∈ bs,
      b.input_ids.map List.length = b.attention_mask.map List.length)
    (ress : List ChunkResult) (remF : Remainder)
    (h : processBatches L ⟨[], []⟩ bs = some (ress, remF)) :
    specFold L ⟨[], []⟩ bs = (ress, remF) :=
  processBatches_eq_specFold L hL bs ⟨[], []⟩ rfl hbs ress remF h

/-- C6 witness: a concrete run on which iteration and fold agree. -/
theorem chunk_stateful_eq_pure_fold_witness :
    specFold 2 ⟨[], []⟩ [⟨[[1, 2, 3]], [[4, 5, 6]]⟩]
      = ([⟨[[1, 2]], [[4, 5]], [[1, 2]]⟩], ⟨[3], [6]⟩) :=
  chunk_stateful_eq_pure_fold 2 (by decide) [⟨[[1, 2, 3]], [[4, 5, 6]]⟩]
    (by intro x hx; rw [List.mem_singleton] at hx; subst hx; rfl)
    [⟨[[1, 2]], [[4, 5]], [[1, 2]]⟩] ⟨[3], [6]⟩ (by decide)

/-- C7: chunk is deterministic and depends on nothing besides the remainder
state, the batch and chunk_length: equal inputs give equal blocks and equal
new remainders. -/
theorem chunk_deterministic (rem₁ rem₂ : Remainder) (b₁ b₂ : SampleBatch)
    (L₁ L₂ : Nat) (hr : rem₁ = rem₂) (hb : b₁ = b₂) (hl : L₁ = L₂) :
    chunk rem₁ b₁ L₁ = chunk rem₂ b₂ L₂ := by
  subst hr
  subst hb
  subst hl
  rfl

/-- C7 witness: a concrete pair of equal calls. -/
theorem chunk_deterministic_witness :
    chunk ⟨[1], [1]⟩ ⟨[[2, 3]], [[2, 3]]⟩ 2
      = chunk ⟨[1], [1]⟩ ⟨[[2, 3]], [[2, 3]]⟩ 2 :=
  chunk_deterministic ⟨[1], [1]⟩ ⟨[1], [1]⟩ ⟨[[2, 3]], [[2, 3]]⟩
    ⟨[[2, 3]], [[2, 3]]⟩ 2 2 rfl rfl rfl

/-- C8: the pipeline's dataset map applies chunk with chunk_length fixed to
1536, overriding the default parameter value 2048, so every training block it
produces (under any key) has length 1536. -/
theorem lm_dataset_block_length (rem : Remainder) (b : SampleBatch)
    (hwf : WellFormed rem b) (res : ChunkResult) (rem' : Remainder)
    (h : lmChunk rem b = some (res, rem')) :
    (∀ blk ∈ res.input_ids, blk.length = 1536) ∧
      (∀ blk ∈ res.attention_mask, blk.length = 1536) ∧
      (∀ blk ∈ res.labels, blk.length = 1536) ∧
      lmChunk rem b = chunk rem b 1536 ∧
      chunkDefault rem b = chunk rem b 2048 := by
  have ha := blocks_length_aux rem b 1536 (by omega) hwf res rem' h
  exact ⟨ha.1, ha.2.1, ha.2.2.1, rfl, rfl⟩

/-- C8 witness: a concrete batch of exactly 1536 tokens. -/
theorem lm_dataset_block_length_witness :
    (∀ blk ∈ [List.replicate 1536 7], List.length blk = 1536) ∧
      (∀ blk ∈ [List.replicate 1536 1], List.length blk = 1536) ∧
      (∀ blk ∈ [List.replicate 1536 7], List.length blk = 1536) ∧
      lmChunk ⟨[], []⟩ ⟨[List.replicate 1536 7], [List.replicate 1536 1]⟩
        = chunk ⟨[], []⟩ ⟨[List.replicate 1536 7], [List.replicate 1536 1]⟩ 1536 ∧
      chunkDefault ⟨[], []⟩ ⟨[List.replicate 1536 7], [List.replicate 1536 1]⟩
        = chunk ⟨[], []⟩ ⟨[List.replicate 1536 7], [List.replicate 1536 1]⟩ 2048 := by
  have hsome : lmChunk ⟨[], []⟩
      ⟨[List.replicate 1536 7], [List.replicate 1536 1]⟩
      = some (⟨[List.replicate 1536 7], [List.replicate 1536 1],
          [List.replicate 1536 7]⟩, ⟨[], []⟩) := by
    show chunk ⟨[], []⟩ ⟨[List.replicate 1536 7], [List.replicate 1536 1]⟩ 1536
      = _
    rw [chunk_eq_some _ _ _ (by
      simp only [List.nil_append, List.flatten_cons, List.flatten_nil,
        List.append_nil, List.length_replicate]
      omega)]
    norm_num [sliceBlocks, List.take_replicate, List.drop_replicate,
      List.range_succ, List.range_zero]
  exact lm_dataset_block_length ⟨[], []⟩
    ⟨[List.replicate 1536 7], [List.replicate 1536 1]⟩
    (by constructor <;> simp only [List.map_cons, List.map_nil,
      List.length_replicate, List.length_nil])
    ⟨[List.replicate 1536 7], [List.replicate 1536 1], [List.replicate 1536 7]⟩
    ⟨[], []⟩ hsome

/-- C9: whenever the carried remainder together with the batch holds fewer
than chunk_length tokens, chunk does not return an empty block list with all
tokens carried forward: the source reads the never-assigned local
batch_chunk_length and raises an unhandled UnboundLocalError (a NameError),
modelled as none. -/
theorem chunk_short_total_errors (rem : Remainder) (b : SampleBatch) (L : Nat)
    (h : (rem.input_ids ++ b.input_ids.flatten).length < L) :
    chunk rem b L = none :=
  chunk_eq_none rem b L h

/-- C9 witness: a concrete short batch. -/
theorem chunk_short_total_errors_witness :
    chunk ⟨[1], [1]⟩ ⟨[[2, 3]], [[2, 3]]⟩ 5 = none :=
  chunk_short_total_errors ⟨[1], [1]⟩ ⟨[[2, 3]], [[2, 3]]⟩ 5 (by decide)

/-- C10: chunk keeps its keys in lockstep: for well-formed input, a
successful call emits equally many blocks under input_ids, attention_mask and
labels, corresponding blocks have equal length, and the new remainder's two
keys again have equal length. -/
theorem chunk_keys_lockstep (rem : Remainder) (b : SampleBatch) (L : Nat)
    (hwf : WellFormed rem b) (res : ChunkResult) (rem' : Remainder)
    (h : chunk rem b L = some (res, rem')) :
    res.input_ids.length = res.attention_mask.length ∧
      res.labels.length = res.input_ids.length ∧
      res.input_ids.map List.length = res.attention_mask.map List.length ∧
      res.labels.map List.length = res.input_ids.map List.length ∧
      rem'.input_ids.length = rem'.attention_mask.length := by
  obtain ⟨-, hres, hrem⟩ := chunk_some_inv rem b L res rem' h
  subst hres
  subst hrem
  have hlen := wellFormed_length_eq rem b hwf
  refine ⟨?_, rfl, ?_, rfl, ?_⟩
  · rw [sliceBlocks_count, sliceBlocks_count]
  · exact sliceBlocks_map_length L _ _ _ hlen
  · simp only [List.length_drop, hlen]

/-- C10 witness: a concrete successful call. -/
theorem chunk_keys_lockstep_witness :
    List.length [[1, 2], [3, 4]] = List.length [[5, 6], [7, 8]] ∧
      List.length [[1, 2], [3, 4]] = List.length [[1, 2], [3, 4]] ∧
      List.map List.length [[1, 2], [3, 4]]
        = List.map List.length [[5, 6], [7, 8]] ∧
      List.map List.length [[1, 2], [3, 4]]
        = List.map List.length [[1, 2], [3, 4]] ∧
      List.length [9] = List.length [0] := by
  have h := chunk_keys_lockstep ⟨[1], [5]⟩ ⟨[[2, 3, 4, 9]], [[6, 7, 8, 0]]⟩ 2
    ⟨rfl, rfl⟩ ⟨[[1, 2], [3, 4]], [[5, 6], [7, 8]], [[1, 2], [3, 4]]⟩
    ⟨[9], [0]⟩ (by decide)
  exact h

end BloomChunk
